import Mathlib

/-!
# pulumi-bitbucket: the name normalizer and the provider descriptor

A shallow embedding of `provider/resources.go`.

* Go strings are embedded as Lean strings and processed as lists of characters.
  The only positions the code inspects are those of the one-byte character `_`,
  so byte offsets and character offsets give the same guard and the same slice.
* `contract.Assertf` aborts the process when its condition is false; an abort is
  the value `none`.
* Go maps written as literals are embedded as association lists in source order.
-/

namespace Bitbucket

/-! ## Helpers of the Go standard library and of the dependencies -/

/-- Go `strings.Index(s, sep)` for a one-character separator: the offset of the
first occurrence of `sep` in `s`, or `-1` when there is none. -/
def stringsIndex (sep : Char) : List Char → Int
  | [] => -1
  | c :: cs =>
    if c = sep then 0
    else
      let r := stringsIndex sep cs
      if r < 0 then -1 else r + 1

/-- Modelled from the spec: the splitting step of `strcase.ToPascal` (not part of
the sources), "split on remaining underscores": the pieces between two
underscores, possibly empty, in order. -/
def splitSegments : List Char → List (List Char)
  | [] => [[]]
  | c :: cs =>
    if c = '_' then [] :: splitSegments cs
    else
      match splitSegments cs with
      | [] => [[c]]
      | w :: ws => (c :: w) :: ws

/-- Modelled from the spec: the casing step of `strcase.ToPascal` (not part of the
sources), "uppercase the first letter of each segment": the first character is
uppercased when it is one of the letters `a` to `z`, the rest is left as it is
and an empty segment stays empty. -/
def capitalize : List Char → List Char
  | [] => []
  | c :: cs => c.toUpper :: cs

/-- Modelled from the spec: `strcase.ToPascal` of the dependency
`github.com/ettle/strcase`, whose code is not part of the sources. The spec words
it as: split on the remaining underscores, uppercase the first letter of each
segment, concatenate. -/
def ToPascal (s : String) : String :=
  String.mk ((splitSegments s.data).map capitalize).flatten

/-- Modelled from the spec: the token of the bridge framework (`tokens.Type`,
`tokens.ModuleMember`), whose code is not part of the sources. The spec words it
as an identifier composed of (package name, module name, declared name). -/
structure Token where
  pkg : String
  mod : String
  name : String
  deriving DecidableEq, Repr

/-- Modelled from the spec: `tfbridge.MakeResource`, the external
token-construction call for resource types, not part of the sources: the token
composed of (package name, module name, declared name). The spec describes it on
declared names that are non-empty only; the call reads the first character of
the declared name, and on an empty declared name it aborts. -/
def MakeResource (pkg mod res : String) : Option Token :=
  if res.length > 0 then some { pkg := pkg, mod := mod, name := res } else none

/-- Modelled from the spec: `tfbridge.MakeDataSource`, the external
token-construction call for data-source functions, not part of the sources: the
token composed of (package name, module name, function name). `makeDataSource`
only calls it with a function name that starts with `get`, which is never
empty. -/
def MakeDataSource (pkg mod fn : String) : Token :=
  { pkg := pkg, mod := mod, name := fn }

/-! ## `resources.go` -/

/-- The constant `mainMod`. -/
def mainMod : String := "index"

/-- The function `convertName`: both assertions, the slice `name[idx+1:]` and
the call of `strcase.ToPascal`. -/
def convertName (name : String) : Option String :=
  let idx := stringsIndex '_' name.data
  if idx > 0 ∧ idx < (name.length : Int) - 1 then
    let name := String.mk (name.data.drop (idx + 1).toNat)
    if name.length > 0 then
      some (ToPascal name)
    else none
  else none

/-- The function `makeDataSource`. -/
def makeDataSource (mod name : String) : Option Token :=
  match convertName name with
  | none => none
  | some name => some (MakeDataSource "bitbucket" mod ("get" ++ name))

/-- The function `makeResource`. -/
def makeResource (mod res : String) : Option Token :=
  match convertName res with
  | none => none
  | some name => MakeResource "bitbucket" mod name

/-- The record `tfbridge.DefaultInfo`, with the one field the descriptor sets. -/
structure DefaultInfo where
  EnvVars : List String
  deriving DecidableEq, Repr

/-- The record `tfbridge.SchemaInfo`, with the fields the descriptor sets. The
pointer fields are options: `none` is the nil pointer, and `tfbridge.True()` is
`some true`. -/
structure SchemaInfo where
  Default : Option DefaultInfo
  MarkAsOptional : Option Bool
  deriving DecidableEq, Repr

/-- The record `tfbridge.ResourceInfo`, with the one field the descriptor sets. -/
structure ResourceInfo where
  Tok : Token
  deriving DecidableEq, Repr

/-- The record `tfbridge.DataSourceInfo`, with the one field the descriptor sets. -/
structure DataSourceInfo where
  Tok : Token
  deriving DecidableEq, Repr

/-- The record `tfbridge.ProviderInfo`: the descriptive strings and the three
tables `Config`, `Resources` and `DataSources`. The wrapped Terraform provider
`P`, the version, the callback and the per-language packaging blocks are not
embedded; none of them is computed from the tables. -/
structure ProviderInfo where
  Name : String
  DisplayName : String
  Publisher : String
  Description : String
  Keywords : List String
  License : String
  GitHubOrg : String
  Config : List (String × SchemaInfo)
  Resources : List (String × ResourceInfo)
  DataSources : List (String × DataSourceInfo)
  deriving Repr

/-- One entry `key: {Tok: tok}` of the map literal `Resources`; it aborts when
the evaluation of `tok` aborts. -/
def resourceEntry (key : String) (tok : Option Token) : Option (String × ResourceInfo) :=
  match tok with
  | none => none
  | some t => some (key, { Tok := t })

/-- One entry `key: {Tok: tok}` of the map literal `DataSources`; it aborts when
the evaluation of `tok` aborts. -/
def dataSourceEntry (key : String) (tok : Option Token) : Option (String × DataSourceInfo) :=
  match tok with
  | none => none
  | some t => some (key, { Tok := t })

/-- Evaluation of the entries of a map literal in source order: the first abort
aborts the whole literal. -/
def evalEntries {α : Type} : List (Option α) → Option (List α)
  | [] => some []
  | x :: xs =>
    match x with
    | none => none
    | some a =>
      match evalEntries xs with
      | none => none
      | some as => some (a :: as)

/-- The map literal `Config` of `Provider()`. -/
def providerConfig : List (String × SchemaInfo) := [
  ("username",
    { Default := some { EnvVars := ["BITBUCKET_USERNAME"] }, MarkAsOptional := some true }),
  ("password",
    { Default := some { EnvVars := ["BITBUCKET_PASSWORD"] }, MarkAsOptional := some true }),
  ("oauth_client_id",
    { Default := some { EnvVars := ["BITBUCKET_OAUTH_CLIENT_ID"] }, MarkAsOptional := some true }),
  ("oauth_client_secret",
    { Default := some { EnvVars := ["BITBUCKET_OAUTH_CLIENT_SECRET"] }, MarkAsOptional := some true }),
  ("oauth_token",
    { Default := some { EnvVars := ["BITBUCKET_OAUTH_TOKEN"] }, MarkAsOptional := some true })]

/-- The map literal `Resources` of `Provider()`, each entry with its own key and
its own call of `makeResource`, as written in the source. -/
def providerResources : Option (List (String × ResourceInfo)) :=
  evalEntries [
    resourceEntry "bitbucket_branch_restriction" (makeResource mainMod "bitbucket_branch_restriction"),
    resourceEntry "bitbucket_branching_model" (makeResource mainMod "bitbucket_branching_model"),
    resourceEntry "bitbucket_commit_file" (makeResource mainMod "bitbucket_commit_file"),
    resourceEntry "bitbucket_default_reviewers" (makeResource mainMod "bitbucket_default_reviewers"),
    resourceEntry "bitbucket_deploy_key" (makeResource mainMod "bitbucket_deploy_key"),
    resourceEntry "bitbucket_deployment" (makeResource mainMod "bitbucket_deployment"),
    resourceEntry "bitbucket_deployment_variable" (makeResource mainMod "bitbucket_deployment_variable"),
    resourceEntry "bitbucket_forked_repository" (makeResource mainMod "bitbucket_forked_repository"),
    resourceEntry "bitbucket_group" (makeResource mainMod "bitbucket_group"),
    resourceEntry "bitbucket_group_membership" (makeResource mainMod "bitbucket_group_membership"),
    resourceEntry "bitbucket_hook" (makeResource mainMod "bitbucket_hook"),
    resourceEntry "bitbucket_pipeline_schedule" (makeResource mainMod "bitbucket_pipeline_schedule"),
    resourceEntry "bitbucket_pipeline_ssh_key" (makeResource mainMod "bitbucket_pipeline_ssh_key"),
    resourceEntry "bitbucket_pipeline_ssh_known_host" (makeResource mainMod "bitbucket_pipeline_ssh_known_host"),
    resourceEntry "bitbucket_project" (makeResource mainMod "bitbucket_project"),
    resourceEntry "bitbucket_project_branching_model" (makeResource mainMod "bitbucket_project_branching_model"),
    resourceEntry "bitbucket_project_default_reviewers" (makeResource mainMod "bitbucket_project_default_reviewers"),
    resourceEntry "bitbucket_repository" (makeResource mainMod "bitbucket_repository"),
    resourceEntry "bitbucket_repository_group_permission" (makeResource mainMod "bitbucket_repository_group_permission"),
    resourceEntry "bitbucket_repository_user_permission" (makeResource mainMod "bitbucket_repository_user_permission"),
    resourceEntry "bitbucket_repository_variable" (makeResource mainMod "bitbucket_repository_variable"),
    resourceEntry "bitbucket_ssh_key" (makeResource mainMod "bitbucket_ssh_key"),
    resourceEntry "bitbucket_workspace_hook" (makeResource mainMod "bitbucket_workspace_hook"),
    resourceEntry "bitbucket_workspace_variable" (makeResource mainMod "bitbucket_workspace_variable")]

/-- The map literal `DataSources` of `Provider()`, each entry with its own key
and its own call of `makeDataSource`, as written in the source. -/
def providerDataSources : Option (List (String × DataSourceInfo)) :=
  evalEntries [
    dataSourceEntry "bitbucket_current_user" (makeDataSource mainMod "bitbucket_current_user"),
    dataSourceEntry "bitbucket_deployment" (makeDataSource mainMod "bitbucket_deployment"),
    dataSourceEntry "bitbucket_group" (makeDataSource mainMod "bitbucket_group"),
    dataSourceEntry "bitbucket_group_members" (makeDataSource mainMod "bitbucket_group_members"),
    dataSourceEntry "bitbucket_groups" (makeDataSource mainMod "bitbucket_groups"),
    dataSourceEntry "bitbucket_hook_types" (makeDataSource mainMod "bitbucket_hook_types"),
    dataSourceEntry "bitbucket_ip_ranges" (makeDataSource mainMod "bitbucket_ip_ranges"),
    dataSourceEntry "bitbucket_pipeline_oidc_config" (makeDataSource mainMod "bitbucket_pipeline_oidc_config"),
    dataSourceEntry "bitbucket_pipeline_oidc_config_keys" (makeDataSource mainMod "bitbucket_pipeline_oidc_config_keys"),
    dataSourceEntry "bitbucket_user" (makeDataSource mainMod "bitbucket_user"),
    dataSourceEntry "bitbucket_workspace" (makeDataSource mainMod "bitbucket_workspace"),
    dataSourceEntry "bitbucket_workspace_members" (makeDataSource mainMod "bitbucket_workspace_members")]

/-- The function `Provider`: the descriptor, or an abort when one of the calls
of the normalizer inside the two token tables aborts. The closing call
`SetAutonaming(255, "-")` belongs to the bridge framework and does not touch the
keys or the tokens of the tables. -/
def Provider : Option ProviderInfo :=
  match providerResources with
  | none => none
  | some resources =>
    match providerDataSources with
    | none => none
    | some dataSources =>
      some {
        Name := "bitbucket"
        DisplayName := "Bitbucket"
        Publisher := "padraic-padraic"
        Description := "A Pulumi package for creating and managing Bitbucket resources"
        Keywords := ["pulumi", "bitbucket", "category/versioncontrol"]
        License := "Apache-2.0"
        GitHubOrg := "padraic-padraic"
        Config := providerConfig
        Resources := resources
        DataSources := dataSources }

/-! ## Vocabulary of the statements -/

/-- The text `s1_s2_..._sk` made of the segments `s1`, ..., `sk`. -/
def joinSegments : List (List Char) → List Char
  | [] => []
  | [s] => s
  | s :: t :: rest => s ++ '_' :: joinSegments (t :: rest)

/-- A segment of an identifier: a non-empty text of lowercase letters. -/
def IsSegment (s : List Char) : Prop :=
  s ≠ [] ∧ ∀ c ∈ s, c.isLower = true

/-- An identifier of the data model over the namespace `ns`: the namespace, one
underscore, then one or more segments separated by underscores. -/
def IsIdentifier (ns : List Char) (s : String) : Prop :=
  ∃ segs : List (List Char),
    segs ≠ [] ∧ (∀ seg ∈ segs, IsSegment seg) ∧ s.data = ns ++ '_' :: joinSegments segs

/-- A decision procedure for `IsIdentifier`: the text starts with the namespace
and one underscore, and the rest splits into non-empty lowercase pieces. -/
def identifierCheck (ns : List Char) (s : String) : Bool :=
  decide (s.data.take (ns.length + 1) = ns ++ ['_']) &&
    (splitSegments (s.data.drop (ns.length + 1))).all
      (fun seg => !seg.isEmpty && seg.all Char.isLower)

/-! ## Lemmas on the helpers -/

theorem stringsIndex_of_not_mem (sep : Char) (l : List Char) (h : sep ∉ l) :
    stringsIndex sep l = -1 := by
  induction l with
  | nil => rfl
  | cons c cs ih =>
    have hc : c ≠ sep := fun e => h (by simp [e])
    have hcs : sep ∉ cs := fun m => h (List.mem_cons_of_mem _ m)
    simp [stringsIndex, hc, ih hcs]

theorem stringsIndex_first (sep : Char) (pre post : List Char) (h : sep ∉ pre) :
    stringsIndex sep (pre ++ sep :: post) = (pre.length : Int) := by
  induction pre with
  | nil => simp [stringsIndex]
  | cons c cs ih =>
    have hc : c ≠ sep := fun e => h (by simp [e])
    have hcs : sep ∉ cs := fun m => h (List.mem_cons_of_mem _ m)
    have h0 : ¬ ((cs.length : Int) < 0) := by omega
    simp [stringsIndex, hc, ih hcs, h0]

theorem first_split_unique (sep : Char) (p q r t : List Char) (hp : sep ∉ p) (hq : sep ∉ q)
    (e : p ++ sep :: r = q ++ sep :: t) : p = q ∧ r = t := by
  have h1 := stringsIndex_first sep p r hp
  have h2 := stringsIndex_first sep q t hq
  rw [e, h2] at h1
  have hl : q.length = p.length := by exact_mod_cast h1
  have := List.append_inj e hl.symm
  exact ⟨this.1, (List.cons.inj this.2).2⟩

/-- The value of `convertName` on a text cut at its first underscore. -/
theorem convertName_split (pre post : List Char) (h : '_' ∉ pre) :
    convertName (String.mk (pre ++ '_' :: post)) =
      if pre ≠ [] ∧ post ≠ [] then some (ToPascal (String.mk post)) else none := by
  unfold convertName
  simp only [stringsIndex_first '_' pre post h, String.length]
  by_cases hpre : pre = []
  · subst hpre; simp
  · by_cases hpost : post = []
    · subst hpost; simp
    · have l1 : 0 < pre.length := List.length_pos.mpr hpre
      have l2 : 0 < post.length := List.length_pos.mpr hpost
      have g : ((pre.length : Int) > 0 ∧
          (pre.length : Int) < ((pre ++ '_' :: post).length : Int) - 1) := by
        simp only [List.length_append, List.length_cons]; push_cast; omega
      have d : ((pre.length : Int) + 1).toNat = pre.length + 1 := by omega
      have dr : List.drop (pre.length + 1) (pre ++ '_' :: post) = post := by
        rw [List.drop_append_eq_append_drop]
        simp
      simp [g, d, dr, hpre, hpost, l2]

theorem convertName_of_not_mem (s : String) (h : '_' ∉ s.data) : convertName s = none := by
  unfold convertName
  simp [stringsIndex_of_not_mem '_' s.data h]

theorem lower_mem_alphabet (c : Char) (h : c.isLower = true) :
    c ∈ "abcdefghijklmnopqrstuvwxyz".data := by
  have hn : 97 ≤ c.toNat ∧ c.toNat ≤ 122 := by
    simp only [Char.isLower, Bool.and_eq_true, decide_eq_true_eq] at h
    exact ⟨h.1, h.2⟩
  have hc : c = Char.ofNat c.toNat := (Char.ofNat_toNat c).symm
  generalize c.toNat = n at hn hc
  obtain ⟨h1, h2⟩ := hn
  subst hc
  interval_cases n <;> decide

theorem toUpper_of_lower (c : Char) (h : c.isLower = true) :
    c.toUpper.isUpper = true ∧ c.toUpper ≠ '_' ∧ c ≠ '_' := by
  have hm := lower_mem_alphabet c h
  simp only [List.mem_cons, List.mem_singleton, List.not_mem_nil, or_false] at hm
  rcases hm with e | e | e | e | e | e | e | e | e | e | e | e | e | e | e | e | e | e | e | e |
    e | e | e | e | e | e <;> subst e <;> decide

theorem segment_no_underscore (s : List Char) (h : IsSegment s) : '_' ∉ s := by
  intro hm
  have := h.2 _ hm
  exact absurd this (by decide)

theorem splitSegments_ne_nil (l : List Char) : splitSegments l ≠ [] := by
  cases l with
  | nil => simp [splitSegments]
  | cons c cs =>
    by_cases hc : c = '_'
    · simp [splitSegments, hc]
    · simp only [splitSegments, hc, if_false]
      split <;> simp

theorem splitSegments_no_underscore (s : List Char) (h : '_' ∉ s) : splitSegments s = [s] := by
  induction s with
  | nil => rfl
  | cons c cs ih =>
    have hc : c ≠ '_' := fun e => h (by simp [e])
    have hcs : '_' ∉ cs := fun m => h (List.mem_cons_of_mem _ m)
    simp [splitSegments, hc, ih hcs]

theorem splitSegments_append (s rest : List Char) (h : '_' ∉ s) :
    splitSegments (s ++ '_' :: rest) = s :: splitSegments rest := by
  induction s with
  | nil => simp [splitSegments]
  | cons c cs ih =>
    have hc : c ≠ '_' := fun e => h (by simp [e])
    have hcs : '_' ∉ cs := fun m => h (List.mem_cons_of_mem _ m)
    simp [splitSegments, hc, ih hcs]

theorem splitSegments_joinSegments (segs : List (List Char)) (hne : segs ≠ [])
    (h : ∀ seg ∈ segs, '_' ∉ seg) : splitSegments (joinSegments segs) = segs := by
  induction segs with
  | nil => exact absurd rfl hne
  | cons s t ih =>
    cases t with
    | nil => simpa [joinSegments] using splitSegments_no_underscore s (h s (by simp))
    | cons u rest =>
      have hs : '_' ∉ s := h s (by simp)
      have ht : ∀ seg ∈ u :: rest, '_' ∉ seg := fun seg m => h seg (List.mem_cons_of_mem _ m)
      simp only [joinSegments]
      rw [splitSegments_append s _ hs, ih (by simp) ht]

theorem joinSegments_ne_nil (segs : List (List Char)) (hne : segs ≠ [])
    (h : ∀ seg ∈ segs, IsSegment seg) : joinSegments segs ≠ [] := by
  cases segs with
  | nil => exact absurd rfl hne
  | cons s t =>
    have hs : s ≠ [] := (h s (by simp)).1
    cases t with
    | nil => simpa [joinSegments] using hs
    | cons u rest => simp [joinSegments]

theorem capitalize_no_underscore (s : List Char) (h : IsSegment s) : '_' ∉ capitalize s := by
  cases s with
  | nil => simp [capitalize]
  | cons c cs =>
    have hc := toUpper_of_lower c (h.2 c (by simp))
    have hcs : '_' ∉ cs := fun m => segment_no_underscore _ h (List.mem_cons_of_mem _ m)
    simp only [capitalize, List.mem_cons, not_or]
    exact ⟨fun e => hc.2.1 e.symm, hcs⟩

theorem joinSegments_splitSegments (l : List Char) : joinSegments (splitSegments l) = l := by
  induction l with
  | nil => rfl
  | cons c cs ih =>
    by_cases hc : c = '_'
    · have hne := splitSegments_ne_nil cs
      cases hsp : splitSegments cs with
      | nil => exact absurd hsp hne
      | cons w ws =>
        rw [hsp] at ih
        simp [splitSegments, hc, hsp, joinSegments, ih]
    · have hne := splitSegments_ne_nil cs
      cases hsp : splitSegments cs with
      | nil => exact absurd hsp hne
      | cons w ws =>
        rw [hsp] at ih
        cases ws with
        | nil =>
          simp only [joinSegments] at ih
          simp [splitSegments, hc, hsp, joinSegments, ih]
        | cons u rest =>
          simp only [joinSegments] at ih
          simp [splitSegments, hc, hsp, joinSegments, ih]

theorem IsIdentifier_of_check (ns : List Char) (s : String)
    (h : identifierCheck ns s = true) : IsIdentifier ns s := by
  simp only [identifierCheck, Bool.and_eq_true, decide_eq_true_eq, List.all_eq_true,
    Bool.not_eq_true', List.isEmpty_eq_false] at h
  obtain ⟨h1, h2⟩ := h
  refine ⟨splitSegments (s.data.drop (ns.length + 1)), splitSegments_ne_nil _, ?_, ?_⟩
  · intro seg hm
    exact ⟨(h2 seg hm).1, (h2 seg hm).2⟩
  · rw [joinSegments_splitSegments]
    have := List.take_append_drop (ns.length + 1) s.data
    rw [h1] at this
    simpa using this.symm

theorem string_length_pos (n : String) (h : n ≠ "") : n.length > 0 := by
  cases n with
  | mk d =>
    cases d with
    | nil => exact absurd rfl h
    | cons c cs => simp [String.length]

theorem pascal_eq_nil_iff (l : List Char) :
    ((splitSegments l).map capitalize).flatten = [] ↔ ∀ c ∈ l, c = '_' := by
  induction l with
  | nil => simp [splitSegments, capitalize]
  | cons c cs ih =>
    by_cases hc : c = '_'
    · simp [splitSegments, hc, capitalize, ih]
    · have hne := splitSegments_ne_nil cs
      cases hsp : splitSegments cs with
      | nil => exact absurd hsp hne
      | cons w ws => simp [splitSegments, hc, hsp, capitalize]

/-! ## The normalizer -/



/-- C1: `convertName` aborts exactly on the strings without an underscore, the
strings whose first underscore is at position 0 and the strings whose first
underscore is their last character; on every other string it returns a name.
The strings `bitbucket`, `_repository` and `bitbucket_` abort and
`bitbucket_repository` returns. -/
theorem convertName_abort_iff :
    (∀ s : String, convertName s = none ↔
      ('_' ∉ s.data ∨ (∃ rest, s.data = '_' :: rest) ∨
        (∃ pre, '_' ∉ pre ∧ s.data = pre ++ ['_']))) ∧
    (∀ s : String, ¬ ('_' ∉ s.data ∨ (∃ rest, s.data = '_' :: rest) ∨
        (∃ pre, '_' ∉ pre ∧ s.data = pre ++ ['_'])) → ∃ n, convertName s = some n) ∧
    convertName "bitbucket" = none ∧ convertName "_repository" = none ∧
    convertName "bitbucket_" = none ∧
    convertName "bitbucket_repository" = some "Repository" := by
  have main : ∀ s : String, convertName s = none ↔
      ('_' ∉ s.data ∨ (∃ rest, s.data = '_' :: rest) ∨
        (∃ pre, '_' ∉ pre ∧ s.data = pre ++ ['_'])) := by
    intro s
    by_cases hm : '_' ∈ s.data
    · obtain ⟨pre, post, e, hpre⟩ := List.eq_append_cons_of_mem hm
      have hs : s = String.mk (pre ++ '_' :: post) := by rw [← e]
      rw [hs, convertName_split pre post hpre]
      constructor
      · intro h
        by_cases h1 : pre = []
        · exact Or.inr (Or.inl ⟨post, by simp [h1]⟩)
        · by_cases h2 : post = []
          · exact Or.inr (Or.inr ⟨pre, hpre, by simp [h2]⟩)
          · simp [h1, h2] at h
      · rintro (h | ⟨rest, h⟩ | ⟨q, hq, h⟩)
        · exact absurd (by simp) h
        · have h1 : pre = [] := by
            cases pre with
            | nil => rfl
            | cons c cs =>
              simp only [List.cons_append, List.cons.injEq] at h
              exact absurd (by simp [h.1]) hpre
          simp [h1]
        · have h2 : post = [] :=
            (first_split_unique '_' pre q post [] hpre hq h).2
          simp [h2]
    · constructor
      · intro _; exact Or.inl hm
      · intro _; exact convertName_of_not_mem s hm
  refine ⟨main, ?_, by decide, by decide, by decide, by decide⟩
  intro s hs
  cases hc : convertName s with
  | none => exact absurd ((main s).mp hc) hs
  | some n => exact ⟨n, rfl⟩

/-- C2: on a valid identifier `ns_s1_..._sk` (`ns` non-empty without underscore,
`k ≥ 1`, every segment a non-empty text of lowercase letters) `convertName`
returns the concatenation of the segments, each with its first letter uppercased
and its other characters unchanged; the result has no underscore and does not
depend on `ns`. -/
theorem convertName_identifier (ns : List Char) (segs : List (List Char))
    (hns : ns ≠ []) (hu : '_' ∉ ns) (hne : segs ≠ [])
    (hseg : ∀ seg ∈ segs, IsSegment seg) :
    convertName (String.mk (ns ++ '_' :: joinSegments segs)) =
        some (String.mk (segs.map capitalize).flatten) ∧
      '_' ∉ (segs.map capitalize).flatten ∧
      (∀ seg ∈ segs, ∃ c cs, seg = c :: cs ∧ capitalize seg = c.toUpper :: cs ∧
        c.toUpper.isUpper = true) := by
  refine ⟨?_, ?_, ?_⟩
  · rw [convertName_split ns _ hu]
    have hj := joinSegments_ne_nil segs hne hseg
    have hsp := splitSegments_joinSegments segs hne
      (fun seg m => segment_no_underscore seg (hseg seg m))
    simp [hns, hj, ToPascal, hsp]
  · intro hm
    rw [List.mem_flatten] at hm
    obtain ⟨l, hl, hml⟩ := hm
    rw [List.mem_map] at hl
    obtain ⟨seg, hs, rfl⟩ := hl
    exact capitalize_no_underscore seg (hseg seg hs) hml
  · intro seg hs
    obtain ⟨hne1, hlow⟩ := hseg seg hs
    cases seg with
    | nil => exact absurd rfl hne1
    | cons c cs =>
      exact ⟨c, cs, rfl, rfl, (toUpper_of_lower c (hlow c (by simp))).1⟩

/-- C2 at `bitbucket_repository_variable` (namespace `bitbucket`, segments
`repository` and `variable`): the result is `RepositoryVariable`; and at
`bitbucket_repository` (one segment): the result is `Repository`. -/
theorem convertName_identifier_witness :
    ("bitbucket".data ≠ [] ∧ '_' ∉ "bitbucket".data ∧
      IsSegment "repository".data ∧ IsSegment "variable".data) ∧
    (convertName "bitbucket_repository_variable" = some "RepositoryVariable" ∧
      '_' ∉ "RepositoryVariable".data) ∧
    convertName "bitbucket_repository" = some "Repository" :=
  have hs : ∀ seg ∈ ["repository".data, "variable".data], IsSegment seg := by
    intro seg hm
    simp only [List.mem_cons, List.mem_singleton, List.not_mem_nil, or_false] at hm
    rcases hm with e | e <;> subst e <;> exact ⟨by decide, by decide⟩
  have h2 := convertName_identifier "bitbucket".data ["repository".data, "variable".data]
    (by decide) (by decide) (by decide) hs
  have h1 := convertName_identifier "bitbucket".data ["repository".data]
    (by decide) (by decide) (by decide)
    (fun seg hm => hs seg (by simp only [List.mem_singleton] at hm; simp [hm]))
  ⟨⟨by decide, by decide, hs _ (by simp), hs _ (by simp)⟩, ⟨h2.1, h2.2.1⟩, h1.1⟩

/-- C10, as stated, fails: `a__` passes both assertions, `convertName` returns
the empty name on it, and `makeResource` calls the token constructor with that
empty declared name. -/
theorem convertName_empty_name :
    convertName "a__" = some "" ∧
      makeResource "index" "a__" = MakeResource "bitbucket" "index" "" ∧
      ¬ (∀ s n : String, convertName s = some n → n ≠ "") :=
  ⟨by decide, by decide, fun h => h "a__" "" (by decide) rfl⟩

/-- C10, amended: when `convertName` returns on a text cut at its first
underscore, and the text after that underscore is made of lowercase letters and
underscores with at least one letter, the returned name is non-empty; so
`makeResource` and `makeDataSource` call the token constructors with a non-empty
declared name there, and both return. -/
theorem convertName_nonempty (pre post : List Char) (n : String) (hpre : '_' ∉ pre)
    (_hpost : ∀ c ∈ post, c = '_' ∨ c.isLower = true)
    (hl : ∃ c ∈ post, c.isLower = true)
    (h : convertName (String.mk (pre ++ '_' :: post)) = some n) :
    n ≠ "" ∧
      (∀ mod : String,
        makeResource mod (String.mk (pre ++ '_' :: post)) = MakeResource "bitbucket" mod n ∧
        MakeResource "bitbucket" mod n = some { pkg := "bitbucket", mod := mod, name := n }) ∧
      (∀ mod : String,
        makeDataSource mod (String.mk (pre ++ '_' :: post)) =
          some (MakeDataSource "bitbucket" mod ("get" ++ n)) ∧ "get" ++ n ≠ "") := by
  have hne : n ≠ "" := by
    rw [convertName_split pre post hpre] at h
    by_cases hg : pre ≠ [] ∧ post ≠ []
    · rw [if_pos hg] at h
      have hn : n = ToPascal (String.mk post) := (Option.some.inj h).symm
      intro h2
      have hd : ((splitSegments post).map capitalize).flatten = [] := by
        have := congrArg String.data h2
        rw [hn] at this
        simpa [ToPascal] using this
      obtain ⟨c, hc, hlow⟩ := hl
      have hu := (pascal_eq_nil_iff post).mp hd c hc
      rw [hu] at hlow
      exact absurd hlow (by decide)
    · rw [if_neg hg] at h
      exact absurd h (by simp)
  refine ⟨hne, ?_, ?_⟩
  · intro mod
    refine ⟨by simp [makeResource, h], ?_⟩
    have hlen : n.length > 0 := string_length_pos n hne
    simp [MakeResource, hlen]
  · intro mod
    refine ⟨by simp [makeDataSource, h], ?_⟩
    intro h2
    have := congrArg String.length h2
    simp only [String.length_append] at this
    have h3 : "get".length = 3 := by decide
    have h0 : "".length = 0 := by decide
    omega

/-- C10, amended, at `a_b`: the text after the first underscore is `b`, the
returned name `B` is non-empty and both token builders return. -/
theorem convertName_nonempty_witness :
    ('_' ∉ ['a'] ∧ (∀ c ∈ ['b'], c = '_' ∨ c.isLower = true) ∧
      (∃ c ∈ ['b'], c.isLower = true) ∧ convertName "a_b" = some "B") ∧
    "B" ≠ "" ∧
    makeResource "index" "a_b" = some { pkg := "bitbucket", mod := "index", name := "B" } ∧
    makeDataSource "index" "a_b" =
      some { pkg := "bitbucket", mod := "index", name := "getB" } :=
  have h := convertName_nonempty ['a'] ['b'] "B" (by decide) (by decide) (by decide)
    (by decide)
  ⟨⟨by decide, by decide, by decide, by decide⟩, h.1,
    ((h.2.1 "index").1.trans (h.2.1 "index").2), (h.2.2 "index").1⟩

/-! ## The token builders -/

/-- C3, as stated, fails: on `a__` the normalizer returns (the empty name) and
`makeResource` aborts, so `makeResource` does not abort exactly when
`convertName` does. -/
theorem makeResource_aborts_on_empty_name :
    convertName "a__" = some "" ∧ makeResource "index" "a__" = none ∧
      ¬ (∀ mod id : String, makeResource mod id = none ↔ convertName id = none) :=
  ⟨by decide, by decide, fun h => absurd ((h "index" "a__").mp (by decide)) (by decide)⟩

/-- C3, amended: when `convertName id` returns a non-empty name, `makeResource
mod id` is the token of package `bitbucket`, module `mod` and declared name
`convertName id`; when `convertName id` aborts, `makeResource mod id` aborts; and
a token returned by `makeResource mod id` always carries the name `convertName
id`. The identifier `bitbucket_workspace_hook` gives the name `WorkspaceHook`
under module `index`, and this is its entry in the descriptor. -/
theorem makeResource_token :
    (∀ mod id : String, convertName id = none → makeResource mod id = none) ∧
    (∀ mod id n : String, convertName id = some n → n ≠ "" →
      makeResource mod id = some { pkg := "bitbucket", mod := mod, name := n }) ∧
    (∀ (mod id : String) (t : Token), makeResource mod id = some t →
      convertName id = some t.name ∧ t.pkg = "bitbucket" ∧ t.mod = mod) ∧
    makeResource "index" "bitbucket_workspace_hook" =
      some { pkg := "bitbucket", mod := "index", name := "WorkspaceHook" } ∧
    (∃ p, Provider = some p ∧
      ("bitbucket_workspace_hook",
        ({ Tok := { pkg := "bitbucket", mod := "index", name := "WorkspaceHook" } } :
          ResourceInfo)) ∈ p.Resources) := by
  refine ⟨?_, ?_, ?_, by decide, ⟨_, rfl, by decide⟩⟩
  · intro mod id h
    simp [makeResource, h]
  · intro mod id n h hne
    have hlen : n.length > 0 := string_length_pos n hne
    simp [makeResource, h, MakeResource, hlen]
  · intro mod id t h
    unfold makeResource at h
    cases hc : convertName id with
    | none => rw [hc] at h; exact absurd h (by simp)
    | some n =>
      rw [hc] at h
      have h1 : MakeResource "bitbucket" mod n = some t := h
      unfold MakeResource at h1
      by_cases hlen : n.length > 0
      · rw [if_pos hlen] at h1
        have ht := Option.some.inj h1
        subst ht
        exact ⟨rfl, rfl, rfl⟩
      · rw [if_neg hlen] at h1
        exact absurd h1 (by simp)

/-- C4: `makeDataSource mod id` aborts exactly when `convertName id` aborts, and
otherwise is the token of package `bitbucket`, module `mod` and function name
`get` followed by `convertName id`. The identifier `bitbucket_current_user`
gives the function name `getCurrentUser`, and this is its entry in the
descriptor. -/
theorem makeDataSource_token :
    (∀ mod id : String, makeDataSource mod id = none ↔ convertName id = none) ∧
    (∀ mod id n : String, convertName id = some n →
      ∃ t, makeDataSource mod id = some t ∧ t.pkg = "bitbucket" ∧ t.mod = mod ∧
        t.name = "get" ++ n) ∧
    makeDataSource "index" "bitbucket_current_user" =
      some { pkg := "bitbucket", mod := "index", name := "getCurrentUser" } ∧
    (∃ p, Provider = some p ∧
      ("bitbucket_current_user",
        ({ Tok := { pkg := "bitbucket", mod := "index", name := "getCurrentUser" } } :
          DataSourceInfo)) ∈ p.DataSources) := by
  refine ⟨?_, ?_, by decide, ⟨_, rfl, by decide⟩⟩
  · intro mod id
    unfold makeDataSource
    cases convertName id <;> simp
  · intro mod id n h
    unfold makeDataSource
    rw [h]
    exact ⟨_, rfl, rfl, rfl, rfl⟩

/-! ## The descriptor -/

/-- C5: `Provider()` returns a descriptor whose resource table has 24 entries
and whose data-source table has 12 entries, and the keys of either table, listed
in source order, have no duplicates. -/
theorem provider_keys_unique :
    ∃ p, Provider = some p ∧
      p.Resources.length = 24 ∧ (p.Resources.map Prod.fst).Nodup ∧
      p.DataSources.length = 12 ∧ (p.DataSources.map Prod.fst).Nodup := by
  refine ⟨_, rfl, ?_, ?_, ?_, ?_⟩ <;> decide

/-- C6: every entry of the resource table holds the token `makeResource` gives
for the key of that same entry under module `index`, and every entry of the
data-source table holds the token `makeDataSource` gives for its own key under
module `index`. -/
theorem provider_entries_own_token :
    ∃ p, Provider = some p ∧
      (∀ e ∈ p.Resources, makeResource "index" e.1 = some e.2.Tok) ∧
      (∀ e ∈ p.DataSources, makeDataSource "index" e.1 = some e.2.Tok) := by
  refine ⟨_, rfl, ?_, ?_⟩ <;> decide

/-- C7: the configuration table of the descriptor has exactly the keys
`username`, `password`, `oauth_client_id`, `oauth_client_secret` and
`oauth_token`; every option is marked optional and has a default with a
non-empty list of non-empty environment-variable names. -/
theorem provider_config_options :
    ∃ p, Provider = some p ∧
      p.Config.map Prod.fst =
        ["username", "password", "oauth_client_id", "oauth_client_secret", "oauth_token"] ∧
      (∀ e ∈ p.Config, e.2.MarkAsOptional = some true ∧
        ∃ d, e.2.Default = some d ∧ d.EnvVars ≠ [] ∧ ∀ v ∈ d.EnvVars, v ≠ "") := by
  refine ⟨_, rfl, by decide, ?_⟩
  intro e he
  simp only [providerConfig, List.mem_cons, List.mem_singleton, List.not_mem_nil,
    or_false] at he
  rcases he with h | h | h | h | h <;> subst h <;>
    exact ⟨rfl, _, rfl, by decide, by decide⟩

/-- C8: `Provider()` returns (no assertion of the normalizer fails), and every
key of the resource table and of the data-source table is a valid identifier
over the namespace `bitbucket`, on which `convertName` returns a name. -/
theorem provider_keys_valid :
    ∃ p, Provider = some p ∧
      (∀ e ∈ p.Resources, IsIdentifier "bitbucket".data e.1 ∧
        ∃ n, convertName e.1 = some n) ∧
      (∀ e ∈ p.DataSources, IsIdentifier "bitbucket".data e.1 ∧
        ∃ n, convertName e.1 = some n) := by
  refine ⟨_, rfl, ?_, ?_⟩
  · have h : ∀ e ∈ (Provider.get (by decide)).Resources,
        identifierCheck "bitbucket".data e.1 = true ∧ (convertName e.1).isSome = true := by
      decide
    intro e he
    exact ⟨IsIdentifier_of_check _ _ (h e he).1, Option.isSome_iff_exists.mp (h e he).2⟩
  · have h : ∀ e ∈ (Provider.get (by decide)).DataSources,
        identifierCheck "bitbucket".data e.1 = true ∧ (convertName e.1).isSome = true := by
      decide
    intro e he
    exact ⟨IsIdentifier_of_check _ _ (h e he).1, Option.isSome_iff_exists.mp (h e he).2⟩

/-- C9: the 36 tokens of the descriptor are pairwise distinct: the list of the
24 resource tokens followed by the 12 data-source tokens has no duplicates, also
for `bitbucket_deployment` and `bitbucket_group`, which are keys of both
tables. -/
theorem provider_tokens_distinct :
    ∃ p, Provider = some p ∧
      (p.Resources.map (fun e => e.2.Tok) ++ p.DataSources.map (fun e => e.2.Tok)).length = 36 ∧
      (p.Resources.map (fun e => e.2.Tok) ++ p.DataSources.map (fun e => e.2.Tok)).Nodup ∧
      (∀ k ∈ ["bitbucket_deployment", "bitbucket_group"],
        k ∈ p.Resources.map Prod.fst ∧ k ∈ p.DataSources.map Prod.fst) := by
  refine ⟨_, rfl, ?_, ?_, ?_⟩ <;> decide

end Bitbucket
